import Mathlib

/-!
# Verification of the rest-layer MongoDB storage adapter

Shallow embedding of the adapter's core (src/mongo.go, src/query.go):
the item codec, the sort normalizer, the predicate compiler and the CRUD
executor, together with theorems settling the specification claims.

Conventions of the embedding:
* Go `interface{}` identifier values become the inductive `BID`
  (a native ObjectID carrying its hex form, or any other value carrying
  its `fmt.Sprint` form).
* Go maps (`map[string]interface{}`, `bson.M`) become association lists
  with `setKey`/`lookupKey` giving the map update/lookup semantics.
* The native driver is abstracted at its interface boundary: the outcome
  of each native round-trip (insert error, cursor contents, count result)
  is an explicit input of the model, and the documents stored in the
  collection are a `List StoredDoc`.
* A cancellable context is modelled by the value its `Err()` method
  returns at each polling site (`Option CtxE`); operations that poll the
  context twice take two such values, the second representing the state
  after the native round-trip.
-/

namespace RLMongo

/-- A context error: `context.Canceled` or `context.DeadlineExceeded`. -/
inductive CtxE
  | canceled
  | deadlineExceeded
  deriving DecidableEq, Repr

/-- The error vocabulary crossing the adapter boundary:
the rest-layer taxonomy (`resource.ErrNotFound`, `resource.ErrConflict`,
`resource.ErrNotImplemented`), context errors, `mongo.ErrNoDocuments`,
and the structured native write-error shapes carrying their codes. -/
inductive Err
  | notFound
  | conflict
  | notImplemented
  | ctx (e : CtxE)
  | noDocuments
  | writeException (codes : List Nat)
  | bulkWriteException (codes : List Nat)
  deriving DecidableEq, Repr

/-- An identifier value (`interface{}` held in `resource.Item.ID`):
either a `primitive.ObjectID` (carrying the string its `Hex()` method
yields) or any other comparable value (carrying its `fmt.Sprint` form). -/
inductive BID
  | objectID (hex : String)
  | other (s : String)
  deriving DecidableEq, Repr

/-- A payload value (`interface{}` stored under a payload key). -/
inductive Val
  | vid (i : BID)
  | vother (tag : Nat)
  deriving DecidableEq, Repr

/-- Go map assignment `m[k] = v` on an association list: replace the
first binding of `k`, or append a new binding. -/
def setKey {α : Type} : List (String × α) → String → α → List (String × α)
  | [], k, v => [(k, v)]
  | (k', v') :: rest, k, v =>
    if k' = k then (k, v) :: rest else (k', v') :: setKey rest k v

/-- Go map lookup `m[k]` on an association list. -/
def lookupKey {α : Type} : List (String × α) → String → Option α
  | [], _ => none
  | (k', v') :: rest, k => if k' = k then some v' else lookupKey rest k

/-- `resource.Item`: identifier, ETag, update timestamp and payload.
`time.Time` is abstracted to an instant (`Nat`). -/
structure Item where
  id : BID
  etag : String
  updated : Nat
  payload : List (String × Val)
  deriving DecidableEq, Repr

/-- `mongoItem`: the bson representation of a `resource.Item`.
The payload may be `none`, modelling a `nil` map decoded from the
database when a document has no inlined field. -/
structure MongoItem where
  id : BID
  etag : String
  updated : Nat
  payload : Option (List (String × Val))
  deriving DecidableEq, Repr

/-- `newMongoItem` (src/mongo.go): converts a `resource.Item` into a
`mongoItem`, filtering the `id` key out of the payload so the identifier
is not stored twice. -/
def newMongoItem (i : Item) : MongoItem :=
  { id := i.id
    etag := i.etag
    updated := i.updated
    payload := some (i.payload.filter (fun kv => kv.1 ≠ "id")) }

/-- `newItem` (src/mongo.go): converts a `mongoItem` back into a
`resource.Item`.  A `nil` payload is replaced by an empty map, the
identifier is reinjected under the key `id` into the same map, and an
empty ETag is replaced by the synthetic `p-` + hex/string form of the
identifier. -/
def newItem (i : MongoItem) : Item :=
  let p := i.payload.getD []
  let p := setKey p "id" (Val.vid i.id)
  let item : Item := { id := i.id, etag := i.etag, updated := i.updated, payload := p }
  if item.etag = "" then
    match i.id with
    | BID.objectID h => { item with etag := "p-" ++ h }
    | BID.other s => { item with etag := "p-" ++ s }
  else item

/-- A document persisted in the collection.  The `_etag` field is an
`Option` because its absence (a document never written through this
adapter) is semantically meaningful to the concurrency guard. -/
structure StoredDoc where
  id : BID
  etag : Option String
  updated : Nat
  payload : List (String × Val)
  deriving DecidableEq, Repr

/-- The stored form of a `mongoItem` used as a replacement document. -/
def storedOf (m : MongoItem) : StoredDoc :=
  { id := m.id, etag := some m.etag, updated := m.updated, payload := m.payload.getD [] }

/-- A bson value, as used by the filter documents this adapter builds. -/
inductive BVal
  | str (s : String)
  | int (n : Int)
  | bool (b : Bool)
  | id (i : BID)
  | val (v : Val)
  | values (vs : List Val)
  | regex (pattern : String)
  | doc (m : List (String × BVal))
  | arr (xs : List BVal)

/-- A bson document (`bson.M`), as an association list. -/
abbrev Bson := List (String × BVal)

/-- `getField` (src/query.go): translate a schema field name into a
MongoDB field name; `id` maps onto the primary key `_id`. -/
def getField (f : String) : String :=
  if f = "id" then "_id" else f

/-- The MongoDB evaluation of the identifier+tag filters this adapter
builds (an `_id` equality plus either an `_etag` equality or an
`_etag`-absent `$exists: false` guard), against one stored document.
Modelled from MongoDB's documented filter semantics, which are external
to this repository. -/
def fieldMatches (k : String) (v : BVal) (d : StoredDoc) : Bool :=
  if k = "_id" then
    match v with
    | BVal.id i => i == d.id
    | _ => false
  else if k = "_etag" then
    match v with
    | BVal.str t => d.etag == some t
    | BVal.doc [("$exists", BVal.bool false)] => d.etag == none
    | _ => false
  else false

/-- A document matches a filter when every clause of the filter holds. -/
def bsonMatches (filter : Bson) (d : StoredDoc) : Bool :=
  filter.all fun kv => fieldMatches kv.1 kv.2 d

/-- `strings.HasPrefix` (Go standard library): whether `s` begins with
`pre`, on the character sequence. -/
def hasPrefix (s pre : String) : Bool :=
  pre.data.isPrefixOf s.data

/-- The match filter `Handler.Update` builds (src/mongo.go): the
original identifier, plus `_etag` required absent when the original
ETag has the synthetic `p-` prefix, or an exact `_etag` equality
otherwise. -/
def updateSelector (original : Item) : Bson :=
  let s := setKey [] "_id" (BVal.id original.id)
  if hasPrefix original.etag "p-" then
    setKey s "_etag" (BVal.doc [("$exists", BVal.bool false)])
  else
    setKey s "_etag" (BVal.str original.etag)

/-- The match filter `Handler.Delete` builds (src/mongo.go), identical
in shape to the update filter but keyed on the item being deleted. -/
def deleteSelector (item : Item) : Bson :=
  let s := setKey [] "_id" (BVal.id item.id)
  if hasPrefix item.etag "p-" then
    setKey s "_etag" (BVal.doc [("$exists", BVal.bool false)])
  else
    setKey s "_etag" (BVal.str item.etag)

/-- Replace the first document matching `p` by `new` (the effect of
`ReplaceOne` on the stored collection). -/
def replaceFirst (db : List StoredDoc) (p : StoredDoc → Bool) (new : StoredDoc) :
    List StoredDoc :=
  match db with
  | [] => []
  | d :: rest => if p d then new :: rest else d :: replaceFirst rest p new

/-- Remove the first document matching `p` (the effect of `DeleteOne`). -/
def removeFirst (db : List StoredDoc) (p : StoredDoc → Bool) : List StoredDoc :=
  match db with
  | [] => []
  | d :: rest => if p d then rest else d :: removeFirst rest p

/-- The outcome of `FindOne(ctx, bson.M{"_id": id})` as observed through
its `Err()` method: the context error once the context is cancelled,
`mongo.ErrNoDocuments` when no document carries the identifier, and no
error when one does. -/
def findOneResult (ctx : Option CtxE) (db : List StoredDoc) (id : BID) : Option Err :=
  match ctx with
  | some e => some (Err.ctx e)
  | none => if db.any (fun d => d.id == id) then none else some Err.noDocuments

/-- `isDup` (src/mongo.go): whether a native error is a duplicate-key
violation, by looking for write-error code 11000 in the
`mongo.WriteException` and `mongo.BulkWriteException` shapes. -/
def isDup : Option Err → Bool
  | some (Err.writeException codes) => codes.contains 11000
  | some (Err.bulkWriteException codes) => codes.contains 11000
  | _ => false

/-- `Handler.Insert` (src/mongo.go).  `ctx1` is the context state at the
collection-acquisition check, `ctx2` its state at the post-call check;
`insertErr` is the outcome of the native `InsertMany`. -/
def Insert (ctx1 ctx2 : Option CtxE) (insertErr : Option Err) (items : List Item) :
    Option Err :=
  let _mItems := items.map newMongoItem
  match ctx1 with
  | some e => some (Err.ctx e)
  | none =>
    let err := insertErr
    let err := if isDup err then some Err.conflict else err
    match ctx2 with
    | some e => some (Err.ctx e)
    | none => err

/-- `Handler.Update` (src/mongo.go).  `ctx1` is the context state at the
collection-acquisition check and `ctx2` its state at the zero-match
disambiguation; `replaceErr` is a native failure of `ReplaceOne`.
Returns the reported error together with the collection contents.
(The source's inner `if err != nil` branch after `FindOne` reads the
outer `err`, which is necessarily nil on this path, so it is dead code
and not modelled.) -/
def Update (ctx1 ctx2 : Option CtxE) (replaceErr : Option Err) (db : List StoredDoc)
    (item original : Item) : Option Err × List StoredDoc :=
  let mItem := newMongoItem item
  match ctx1 with
  | some e => (some (Err.ctx e), db)
  | none =>
    let s := updateSelector original
    match replaceErr with
    | some e => (some e, db)
    | none =>
      match db.find? (fun d => bsonMatches s d) with
      | some _ => (none, replaceFirst db (fun d => bsonMatches s d) (storedOf mItem))
      | none =>
        let fr := findOneResult ctx2 db original.id
        if fr = some Err.noDocuments then (some Err.notFound, db)
        else
          match ctx2 with
          | some e => (some (Err.ctx e), db)
          | none => (some Err.conflict, db)

/-- `Handler.Delete` (src/mongo.go): same guard construction and
zero-match disambiguation as `Update`, keyed on the item itself. -/
def Delete (ctx1 ctx2 : Option CtxE) (deleteErr : Option Err) (db : List StoredDoc)
    (item : Item) : Option Err × List StoredDoc :=
  match ctx1 with
  | some e => (some (Err.ctx e), db)
  | none =>
    let s := deleteSelector item
    match deleteErr with
    | some e => (some e, db)
    | none =>
      match db.find? (fun d => bsonMatches s d) with
      | some _ => (none, removeFirst db (fun d => bsonMatches s d))
      | none =>
        let fr := findOneResult ctx2 db item.id
        if fr = some Err.noDocuments then (some Err.notFound, db)
        else
          match ctx2 with
          | some e => (some (Err.ctx e), db)
          | none => (some Err.conflict, db)

/-! ## Predicate compiler (src/query.go) -/

/-- `query.Expression`: the predicate-tree node kinds the adapter can
receive.  `pred` is `query.Predicate` used as an expression (a bare list
of expressions), and `unsupported` stands for any expression type
outside the compiler's case list. -/
inductive Expression
  | and (subs : List Expression)
  | or (subs : List Expression)
  | elemMatch (field : String) (exps : List Expression)
  | inList (field : String) (values : List Val)
  | ninList (field : String) (values : List Val)
  | exist (field : String)
  | notExist (field : String)
  | equal (field : String) (value : Val)
  | notEqual (field : String) (value : Val)
  | greaterThan (field : String) (value : Val)
  | greaterOrEqual (field : String) (value : Val)
  | lowerThan (field : String) (value : Val)
  | lowerOrEqual (field : String) (value : Val)
  | regex (field : String) (pattern : String) (negated : Bool)
  | pred (exps : List Expression)
  | unsupported (kind : String)

/-- `expToPredicate` (src/query.go): view an expression as a predicate,
unwrapping `query.Predicate` values and wrapping anything else as a
singleton. -/
def expToPredicate : Expression → List Expression
  | Expression.pred exps => exps
  | e => [e]

theorem one_le_sizeOf_list {α : Type} [SizeOf α] (l : List α) : 1 ≤ sizeOf l := by
  cases l
  · simp
  · simp
    omega

theorem sizeOf_expToPredicate_le (e : Expression) :
    sizeOf (expToPredicate e) ≤ sizeOf e + 2 := by
  cases e <;> simp [expToPredicate] <;> omega

mutual

/-- The clause `translatePredicate` (src/query.go) adds to its result
map for one expression: the key/value pair assigned by the matching
`switch` case, or `NotImplemented` for the `default` case (which in the
source catches both bare `query.Predicate` values and every type
outside the allow-list). -/
def clauseOf : Expression → Except Err (String × BVal)
  | Expression.and subs =>
    match trSubs subs with
    | Except.error err => Except.error err
    | Except.ok s => Except.ok ("$and", BVal.arr (s.map BVal.doc))
  | Expression.or subs =>
    match trSubs subs with
    | Except.error err => Except.error err
    | Except.ok s => Except.ok ("$or", BVal.arr (s.map BVal.doc))
  | Expression.elemMatch f exps =>
    match trSubs exps with
    | Except.error err => Except.error err
    | Except.ok sbs =>
      let s := sbs.foldl (fun acc sb => sb.foldl (fun a kv => setKey a kv.1 kv.2) acc) []
      Except.ok (getField f, BVal.doc [("$elemMatch", BVal.doc s)])
  | Expression.inList f vs => Except.ok (getField f, BVal.doc [("$in", BVal.values vs)])
  | Expression.ninList f vs => Except.ok (getField f, BVal.doc [("$nin", BVal.values vs)])
  | Expression.exist f => Except.ok (getField f, BVal.doc [("$exists", BVal.bool true)])
  | Expression.notExist f => Except.ok (getField f, BVal.doc [("$exists", BVal.bool false)])
  | Expression.equal f v => Except.ok (getField f, BVal.val v)
  | Expression.notEqual f v => Except.ok (getField f, BVal.doc [("$ne", BVal.val v)])
  | Expression.greaterThan f v => Except.ok (getField f, BVal.doc [("$gt", BVal.val v)])
  | Expression.greaterOrEqual f v => Except.ok (getField f, BVal.doc [("$gte", BVal.val v)])
  | Expression.lowerThan f v => Except.ok (getField f, BVal.doc [("$lt", BVal.val v)])
  | Expression.lowerOrEqual f v => Except.ok (getField f, BVal.doc [("$lte", BVal.val v)])
  | Expression.regex f pat neg =>
    if neg then Except.ok (getField f, BVal.doc [("$not", BVal.regex pat)])
    else Except.ok (getField f, BVal.doc [("$regex", BVal.str pat)])
  | _ => Except.error Err.notImplemented
termination_by e => 2 * sizeOf e + 1
decreasing_by
  all_goals simp_wf

/-- The loop of the `And`/`Or`/`ElemMatch` cases: translate each
sub-expression through `expToPredicate`, collecting the sub-filters in
order and stopping at the first failure. -/
def trSubs : List Expression → Except Err (List Bson)
  | [] => Except.ok []
  | e :: rest =>
    match tpAux (expToPredicate e) [] with
    | Except.error err => Except.error err
    | Except.ok sb =>
      match trSubs rest with
      | Except.error err => Except.error err
      | Except.ok s => Except.ok (sb :: s)
termination_by l => 2 * sizeOf l + 1
decreasing_by
  all_goals simp_wf
  all_goals
    (have h1 := sizeOf_expToPredicate_le e
     have h2 := one_le_sizeOf_list rest
     omega)

/-- The main loop of `translatePredicate` (src/query.go): fold over the
expressions of a predicate, assigning each clause into the accumulated
filter map `b` and returning the first failure. -/
def tpAux : List Expression → Bson → Except Err Bson
  | [], b => Except.ok b
  | e :: rest, b =>
    match clauseOf e with
    | Except.error err => Except.error err
    | Except.ok kv => tpAux rest (setKey b kv.1 kv.2)
termination_by l _ => 2 * sizeOf l
decreasing_by
  all_goals simp_wf
  all_goals omega

end

/-- `translatePredicate` (src/query.go), at the top level: start from
the empty filter map. -/
def translatePredicate (q : List Expression) : Except Err Bson :=
  tpAux q []

/-- `getQuery` (src/query.go): transform a query into a Mongo filter. -/
def getQuery (q : List Expression) : Except Err Bson :=
  translatePredicate q

/-- Whether a predicate (hereditarily) contains an expression whose
kind is outside the compiler's allow-list. -/
def hasOther : List Expression → Bool
  | [] => false
  | Expression.and subs :: rest => hasOther subs || hasOther rest
  | Expression.or subs :: rest => hasOther subs || hasOther rest
  | Expression.elemMatch _ exps :: rest => hasOther exps || hasOther rest
  | Expression.pred subs :: rest => hasOther subs || hasOther rest
  | Expression.unsupported _ :: _ => true
  | _ :: rest => hasOther rest

/-! ## Query shape (src/query.go) -/

/-- One sort key of a query descriptor (`query.SortField`). -/
structure SortField where
  name : String
  reversed : Bool
  deriving DecidableEq, Repr

/-- A pagination window (`query.Window`): offset and limit, as Go ints. -/
structure Window where
  offset : Int
  limit : Int
  deriving DecidableEq, Repr

/-- The query descriptor (`query.Query`) restricted to the parts this
development needs: predicate, sort keys and optional window. -/
structure Query where
  pred : List Expression
  sort : List SortField
  window : Option Window

/-- The deduplication loop of `getSort` (src/query.go): the source
iterates indices from last to first, deleting the entry when its key was
already seen and recording the key otherwise.  Deleting at index `i`
shifts only later (already processed) entries, so the loop is exactly a
last-to-first pass accumulating the keys of the kept entries; this
function performs that pass on the reversed entry list. -/
def dedupSeen : List (String × Int) → List String → List (String × Int)
  | [], _ => []
  | e :: rest, seen =>
    if e.1 ∈ seen then dedupSeen rest seen else e :: dedupSeen rest (e.1 :: seen)

/-- `getSort` (src/query.go): fall back to ascending `_id` when no sort
key is given; otherwise translate names, map directions to 1 / -1 and
deduplicate keeping the last occurrence of each field name. -/
def getSort (q : Query) : List (String × Int) :=
  if q.sort.isEmpty then [("_id", 1)]
  else
    let s := q.sort.map (fun f => (getField f.name, if f.reversed then (-1 : Int) else 1))
    (dedupSeen s.reverse []).reverse

/-- The specification's description of the normalized sort: keep
exactly the entries that are the last occurrence of their field name,
in place (an entry survives when no later entry carries its name). -/
def lastOccurrenceSort : List (String × Int) → List (String × Int)
  | [] => []
  | e :: rest =>
    if e.1 ∈ rest.map Prod.fst then lastOccurrenceSort rest
    else e :: lastOccurrenceSort rest

/-! ## Find and Count (src/mongo.go) -/

/-- `resource.ItemList`: the returned items, the total (with -1 the
"unknown" sentinel) and the applied limit. -/
structure ItemList where
  total : Int
  limit : Int
  items : List Item
  deriving DecidableEq, Repr

/-- `Handler.Count` (src/mongo.go): compile the filter, check the
context, then report the native count.  `countRes` is the outcome of the
native `CountDocuments` round-trip.  Returns the Go pair (count, error),
with -1 reported alongside every error. -/
def Count (ctx : Option CtxE) (q : Query) (countRes : Except Err Nat) :
    Int × Option Err :=
  match getQuery q.pred with
  | Except.error e => (-1, some e)
  | Except.ok _ =>
    match ctx with
    | some e => (-1, some (Err.ctx e))
    | none =>
      match countRes with
      | Except.error e => (-1, some e)
      | Except.ok n => ((n : Int), none)

/-- `Handler.Find` (src/mongo.go).  The native driver is abstracted by
`findErr` (outcome of the native `Find` call) and `docs` (the documents
the cursor yields, already decoded); `countRes` is the count round-trip
used by the zero-limit special case.  The context is modelled as a
single state for the call (the mid-stream cancellation check never fires
for a context that was healthy at the collection-acquisition check). -/
def Find (ctx : Option CtxE) (q : Query) (countRes : Except Err Nat)
    (findErr : Option Err) (docs : List MongoItem) : Except Err ItemList :=
  let main : Except Err ItemList :=
    match getQuery q.pred with
    | Except.error e => Except.error e
    | Except.ok _ =>
      match ctx with
      | some e => Except.error (Err.ctx e)
      | none =>
        let limit : Int := match q.window with | none => -1 | some w => w.limit
        match findErr with
        | some e => Except.error e
        | none =>
          let items := docs.map newItem
          let total : Int :=
            if limit < 0 ∨ (items.length : Int) < limit then
              match q.window with
              | some w =>
                if 0 < w.offset then
                  if 0 < items.length then w.offset + (items.length : Int) else -1
                else (items.length : Int)
              | none => (items.length : Int)
            else -1
          Except.ok { total := total, limit := limit, items := items }
  match q.window with
  | some w =>
    if w.limit = 0 then
      match Count ctx q countRes with
      | (_, some e) => Except.error e
      | (n, none) => Except.ok { total := n, limit := w.limit, items := [] }
    else main
  | none => main

/-! ## Map lemmas -/

theorem lookupKey_setKey {α : Type} (p : List (String × α)) (k k' : String) (v : α) :
    lookupKey (setKey p k v) k' = if k' = k then some v else lookupKey p k' := by
  induction p with
  | nil => simp [setKey, lookupKey, eq_comm]
  | cons kv rest ih =>
    obtain ⟨a, b⟩ := kv
    simp only [setKey, lookupKey]
    split_ifs with h1 h2 <;> simp_all [lookupKey, eq_comm]

theorem lookupKey_filter_id {p : List (String × Val)} {k : String} (hk : k ≠ "id") :
    lookupKey (p.filter (fun kv => kv.1 ≠ "id")) k = lookupKey p k := by
  induction p with
  | nil => simp [lookupKey]
  | cons kv rest ih =>
    obtain ⟨a, b⟩ := kv
    by_cases ha : a = "id"
    · subst ha
      have h1 : ("id" : String) ≠ k := fun h => hk h.symm
      simp_all [List.filter_cons, lookupKey]
    · simp_all [List.filter_cons, lookupKey]

/-- C9: the codec round-trip `fromStored(toStored(item))` reproduces the
item's identifier and timestamp, keeps its tag unless it was empty (then
synthesizing `p-` + hex form of an object-id, `p-` + string form
otherwise), and reproduces the payload minus the identifier key with the
identifier reinjected under the key `id`. -/
theorem codec_round_trip (it : Item) :
    (newItem (newMongoItem it)).id = it.id
    ∧ (newItem (newMongoItem it)).updated = it.updated
    ∧ (newItem (newMongoItem it)).etag =
        (if it.etag = "" then
          (match it.id with
           | BID.objectID h => "p-" ++ h
           | BID.other s => "p-" ++ s)
         else it.etag)
    ∧ ∀ k, lookupKey (newItem (newMongoItem it)).payload k =
        (if k = "id" then some (Val.vid it.id) else lookupKey it.payload k) := by
  refine ⟨?_, ?_, ?_, ?_⟩
  · simp only [newItem, newMongoItem]
    split
    · split <;> rfl
    · rfl
  · simp only [newItem, newMongoItem]
    split
    · split <;> rfl
    · rfl
  · simp only [newItem, newMongoItem]
    split
    · split <;> rfl
    · rfl
  · intro k
    have hpay : (newItem (newMongoItem it)).payload =
        setKey ((it.payload.filter (fun kv => kv.1 ≠ "id"))) "id" (Val.vid it.id) := by
      simp only [newItem, newMongoItem]
      split
      · split <;> rfl
      · rfl
    rw [hpay, lookupKey_setKey]
    by_cases hk : k = "id"
    · simp [hk]
    · rw [if_neg hk, if_neg hk]
      exact lookupKey_filter_id hk

/-- C4: the Update/Delete match filter is the identifier plus a
concurrency guard: tag absent (`$exists: false`) when the original/item
tag carries the synthetic `p-` prefix, exact tag equality otherwise;
and a stored document satisfies it exactly when its identifier matches
and the guard holds. -/
theorem conditional_write_selector (item original : Item) :
    (updateSelector original =
      [("_id", BVal.id original.id),
       ("_etag", if hasPrefix original.etag "p-" then BVal.doc [("$exists", BVal.bool false)]
                 else BVal.str original.etag)])
    ∧ (deleteSelector item =
      [("_id", BVal.id item.id),
       ("_etag", if hasPrefix item.etag "p-" then BVal.doc [("$exists", BVal.bool false)]
                 else BVal.str item.etag)])
    ∧ (∀ d : StoredDoc, bsonMatches (updateSelector original) d = true ↔
        (original.id = d.id ∧
         (if hasPrefix original.etag "p-" then d.etag = none
          else d.etag = some original.etag)))
    ∧ (∀ d : StoredDoc, bsonMatches (deleteSelector item) d = true ↔
        (item.id = d.id ∧
         (if hasPrefix item.etag "p-" then d.etag = none
          else d.etag = some item.etag))) := by
  refine ⟨?_, ?_, ?_, ?_⟩
  · by_cases h : hasPrefix original.etag "p-" <;> simp [updateSelector, h, setKey]
  · by_cases h : hasPrefix item.etag "p-" <;> simp [deleteSelector, h, setKey]
  · intro d
    by_cases h : hasPrefix original.etag "p-" <;>
      simp [updateSelector, h, setKey, bsonMatches, fieldMatches]
  · intro d
    by_cases h : hasPrefix item.etag "p-" <;>
      simp [deleteSelector, h, setKey, bsonMatches, fieldMatches]

/-- C3 counterexample: a duplicate-key failure already remapped to
Conflict IS replaced by the cancellation error — Insert reports the
context error, not Conflict, when the context is cancelled at the
post-call check. -/
theorem insert_cancellation_cex :
    Insert none (some CtxE.canceled) (some (Err.writeException [11000])) []
      = some (Err.ctx CtxE.canceled)
    ∧ Insert none (some CtxE.canceled) (some (Err.writeException [11000])) []
      ≠ some Err.conflict := by
  decide

/-- C3 amended: when the context is past its deadline or cancelled at
the post-call check, Insert surfaces the cancellation condition in
preference to any native error, including a duplicate-key failure that
was already remapped to Conflict. -/
theorem insert_cancellation_overrides (e : CtxE) (insertErr : Option Err)
    (items : List Item) :
    Insert none (some e) insertErr items = some (Err.ctx e) := rfl

/-- C7: a native insert failure carrying the reserved duplicate-key
code 11000 among its structured write errors — in either the
single-write or the bulk-write error shape — is remapped to Conflict. -/
theorem insert_duplicate_key_conflict (codes : List Nat) (items : List Item)
    (h : 11000 ∈ codes) :
    Insert none none (some (Err.writeException codes)) items = some Err.conflict
    ∧ Insert none none (some (Err.bulkWriteException codes)) items = some Err.conflict := by
  constructor <;> simp [Insert, isDup, h]

theorem insert_duplicate_key_conflict_witness :
    11000 ∈ ([11000] : List Nat)
    ∧ (Insert none none (some (Err.writeException [11000])) [] = some Err.conflict
       ∧ Insert none none (some (Err.bulkWriteException [11000])) [] = some Err.conflict) :=
  ⟨by decide, insert_duplicate_key_conflict [11000] [] (by decide)⟩

/-- C6: when a window is present with the zero "return nothing" limit,
Find never consults the native find round-trip (its result does not
depend on it) and instead returns the Count of the same descriptor as
total, with an empty item list and applied limit 0. -/
theorem find_zero_limit_count (q : Query) (countRes : Except Err Nat) (w : Window)
    (hw : q.window = some w) (hl : w.limit = 0) :
    (∀ (ctx : Option CtxE) (findErr findErr' : Option Err)
       (docs docs' : List MongoItem),
        Find ctx q countRes findErr docs = Find ctx q countRes findErr' docs')
    ∧ (∀ (ctx : Option CtxE) (findErr : Option Err) (docs : List MongoItem) (n : Int),
        Count ctx q countRes = (n, none) →
        Find ctx q countRes findErr docs = Except.ok ⟨n, 0, []⟩) := by
  constructor
  · intro ctx fe fe' d d'
    simp [Find, hw, hl]
  · intro ctx fe d n hc
    simp [Find, hw, hl, hc]

theorem find_zero_limit_count_witness :
    ((⟨[], [], some ⟨0, 0⟩⟩ : Query).window = some ⟨0, 0⟩)
    ∧ ((⟨0, 0⟩ : Window).limit = 0)
    ∧ (Find none ⟨[], [], some ⟨0, 0⟩⟩ (Except.ok 3) (some Err.noDocuments)
         [⟨BID.other "1", "t", 0, some []⟩]
       = Find none ⟨[], [], some ⟨0, 0⟩⟩ (Except.ok 3) none [])
    ∧ (Find none ⟨[], [], some ⟨0, 0⟩⟩ (Except.ok 3) none []
       = Except.ok ⟨3, 0, []⟩) :=
  ⟨rfl, rfl,
   (find_zero_limit_count ⟨[], [], some ⟨0, 0⟩⟩ (Except.ok 3) ⟨0, 0⟩ rfl rfl).1
     none (some Err.noDocuments) none [⟨BID.other "1", "t", 0, some []⟩] [],
   (find_zero_limit_count ⟨[], [], some ⟨0, 0⟩⟩ (Except.ok 3) ⟨0, 0⟩ rfl rfl).2
     none none [] 3 (by simp [Count, getQuery, translatePredicate, tpAux])⟩

/-- C1: when the conditional replace/delete succeeds natively but
matches zero documents, Update and Delete re-fetch by identifier alone:
no document with the identifier gives NotFound, an existing document
(only the tag guard failed) gives Conflict, and a context cancelled by
then is surfaced instead. -/
theorem update_delete_zero_match_disambiguation
    (db : List StoredDoc) (item original : Item) (ctx2 : Option CtxE)
    (hu : db.find? (fun d => bsonMatches (updateSelector original) d) = none)
    (hd : db.find? (fun d => bsonMatches (deleteSelector item) d) = none) :
    ((ctx2 = none → (∀ d ∈ db, d.id ≠ original.id) →
        (Update none ctx2 none db item original).1 = some Err.notFound)
     ∧ (ctx2 = none → (∃ d ∈ db, d.id = original.id) →
        (Update none ctx2 none db item original).1 = some Err.conflict)
     ∧ (∀ e, ctx2 = some e →
        (Update none ctx2 none db item original).1 = some (Err.ctx e)))
    ∧
    ((ctx2 = none → (∀ d ∈ db, d.id ≠ item.id) →
        (Delete none ctx2 none db item).1 = some Err.notFound)
     ∧ (ctx2 = none → (∃ d ∈ db, d.id = item.id) →
        (Delete none ctx2 none db item).1 = some Err.conflict)
     ∧ (∀ e, ctx2 = some e →
        (Delete none ctx2 none db item).1 = some (Err.ctx e))) := by
  refine ⟨⟨?_, ?_, ?_⟩, ⟨?_, ?_, ?_⟩⟩
  · intro hc hnone
    have hany : db.any (fun d => d.id == original.id) = false := by
      simp only [List.any_eq_false]
      intro d hdm
      simp [hnone d hdm]
    subst hc
    simp [Update, hu, findOneResult, hany]
  · intro hc hsome
    have hany : db.any (fun d => d.id == original.id) = true := by
      simp only [List.any_eq_true]
      obtain ⟨d, hdm, hid⟩ := hsome
      exact ⟨d, hdm, by simp [hid]⟩
    subst hc
    simp [Update, hu, findOneResult, hany]
  · intro e hc
    subst hc
    simp [Update, hu, findOneResult]
  · intro hc hnone
    have hany : db.any (fun d => d.id == item.id) = false := by
      simp only [List.any_eq_false]
      intro d hdm
      simp [hnone d hdm]
    subst hc
    simp [Delete, hd, findOneResult, hany]
  · intro hc hsome
    have hany : db.any (fun d => d.id == item.id) = true := by
      simp only [List.any_eq_true]
      obtain ⟨d, hdm, hid⟩ := hsome
      exact ⟨d, hdm, by simp [hid]⟩
    subst hc
    simp [Delete, hd, findOneResult, hany]
  · intro e hc
    subst hc
    simp [Delete, hd, findOneResult]

theorem update_delete_zero_match_disambiguation_witness :
    ([⟨BID.other "1", some "t", 0, []⟩] : List StoredDoc).find?
        (fun d => bsonMatches (updateSelector ⟨BID.other "1", "stale", 0, []⟩) d) = none
    ∧ ([⟨BID.other "1", some "t", 0, []⟩] : List StoredDoc).find?
        (fun d => bsonMatches (deleteSelector ⟨BID.other "1", "older", 0, []⟩) d) = none
    ∧ ((none : Option CtxE) = none →
        (∃ d ∈ ([⟨BID.other "1", some "t", 0, []⟩] : List StoredDoc),
          d.id = (⟨BID.other "1", "stale", 0, []⟩ : Item).id) →
        (Update none none none [⟨BID.other "1", some "t", 0, []⟩]
          ⟨BID.other "1", "older", 0, []⟩ ⟨BID.other "1", "stale", 0, []⟩).1
          = some Err.conflict)
    ∧ ((none : Option CtxE) = none →
        (∃ d ∈ ([⟨BID.other "1", some "t", 0, []⟩] : List StoredDoc),
          d.id = (⟨BID.other "1", "older", 0, []⟩ : Item).id) →
        (Delete none none none [⟨BID.other "1", some "t", 0, []⟩]
          ⟨BID.other "1", "older", 0, []⟩).1 = some Err.conflict) :=
  ⟨by decide, by decide,
   (update_delete_zero_match_disambiguation [⟨BID.other "1", some "t", 0, []⟩]
     ⟨BID.other "1", "older", 0, []⟩ ⟨BID.other "1", "stale", 0, []⟩ none
     (by decide) (by decide)).1.2.1,
   (update_delete_zero_match_disambiguation [⟨BID.other "1", some "t", 0, []⟩]
     ⟨BID.other "1", "older", 0, []⟩ ⟨BID.other "1", "stale", 0, []⟩ none
     (by decide) (by decide)).2.2.1⟩

/-- The limit the Find path reports: -1 when no window is present,
otherwise the window's limit (src/mongo.go, lines 321-325). -/
def windowLimit (q : Query) : Int :=
  match q.window with | none => -1 | some w => w.limit

/-- The effective offset of a query: 0 when no window is present. -/
def windowOffset (q : Query) : Int :=
  match q.window with | none => 0 | some w => w.offset

/-- C2: for a Find that issues a native query and returns without
error, the reported total is: the number of returned items when no
limit was requested (window absent or negative limit) or fewer items
than the limit came back and the offset is zero; offset + returned
count when the offset is positive and at least one item came back; the
unknown sentinel -1 when the offset is positive and no items came back;
and -1 whenever exactly limit items came back. -/
theorem find_total_policy (q : Query) (countRes : Except Err Nat)
    (docs : List MongoItem) (bq : Bson)
    (hq : getQuery q.pred = Except.ok bq)
    (hw : ∀ w, q.window = some w → w.limit ≠ 0)
    (hoff : ∀ w, q.window = some w → 0 ≤ w.offset) :
    ∃ l, Find none q countRes none docs = Except.ok l
      ∧ l.items = docs.map newItem
      ∧ l.limit = windowLimit q
      ∧ ((windowLimit q < 0 ∨ (docs.length : Int) < windowLimit q) →
          ((windowOffset q = 0 → l.total = docs.length)
           ∧ (0 < windowOffset q → 0 < docs.length →
                l.total = windowOffset q + docs.length)
           ∧ (0 < windowOffset q → docs.length = 0 → l.total = -1)))
      ∧ ((docs.length : Int) = windowLimit q → l.total = -1) := by
  cases hqw : q.window with
  | none =>
    refine ⟨⟨docs.length, -1, docs.map newItem⟩, ?_, rfl, ?_, ?_, ?_⟩
    · simp [Find, hq, hqw]
    · simp [windowLimit, hqw]
    · intro hcase
      refine ⟨fun _ => rfl, ?_, ?_⟩ <;> simp [windowOffset, hqw]
    · intro hlen
      simp [windowLimit, hqw] at hlen
  | some w =>
    have hlim := hw w hqw
    have hof := hoff w hqw
    refine ⟨⟨(if w.limit < 0 ∨ (docs.length : Int) < w.limit then
              (if 0 < w.offset then
                (if 0 < docs.length then w.offset + (docs.length : Int) else -1)
               else (docs.length : Int))
            else -1), w.limit, docs.map newItem⟩, ?_, rfl, ?_, ?_, ?_⟩
    · simp [Find, hq, hqw, hlim]
    · simp [windowLimit, hqw]
    · intro hcase
      simp only [windowLimit, hqw] at hcase
      simp only [windowOffset, hqw]
      refine ⟨?_, ?_, ?_⟩
      · intro hz
        simp [hcase, hz]
      · intro hp hn
        rw [if_pos hcase, if_pos hp, if_pos hn]
      · intro hp hn
        rw [if_pos hcase, if_pos hp, if_neg (by omega)]
    · intro hlen
      simp only [windowLimit, hqw] at hlen
      have : ¬ (w.limit < 0 ∨ (docs.length : Int) < w.limit) := by omega
      rw [if_neg this]

theorem find_total_policy_witness :
    getQuery (⟨[], [], some ⟨10, 10⟩⟩ : Query).pred = Except.ok ([] : Bson)
    ∧ (∀ w : Window, (⟨[], [], some ⟨10, 10⟩⟩ : Query).window = some w → w.limit ≠ 0)
    ∧ (∀ w : Window, (⟨[], [], some ⟨10, 10⟩⟩ : Query).window = some w → 0 ≤ w.offset)
    ∧ (∃ l, Find none ⟨[], [], some ⟨10, 10⟩⟩ (Except.ok 0) none [] = Except.ok l
        ∧ l.items = ([] : List MongoItem).map newItem
        ∧ l.limit = windowLimit ⟨[], [], some ⟨10, 10⟩⟩
        ∧ ((windowLimit ⟨[], [], some ⟨10, 10⟩⟩ < 0
             ∨ (([] : List MongoItem).length : Int) < windowLimit ⟨[], [], some ⟨10, 10⟩⟩) →
            ((windowOffset ⟨[], [], some ⟨10, 10⟩⟩ = 0 →
                l.total = ([] : List MongoItem).length)
             ∧ (0 < windowOffset ⟨[], [], some ⟨10, 10⟩⟩ →
                  0 < ([] : List MongoItem).length →
                  l.total = windowOffset ⟨[], [], some ⟨10, 10⟩⟩ + ([] : List MongoItem).length)
             ∧ (0 < windowOffset ⟨[], [], some ⟨10, 10⟩⟩ →
                  ([] : List MongoItem).length = 0 → l.total = -1)))
        ∧ ((([] : List MongoItem).length : Int) = windowLimit ⟨[], [], some ⟨10, 10⟩⟩ →
             l.total = -1)) :=
  ⟨by simp [getQuery, translatePredicate, tpAux],
   by intro w h; cases h; decide,
   by intro w h; cases h; decide,
   find_total_policy ⟨[], [], some ⟨10, 10⟩⟩ (Except.ok 0) [] []
     (by simp [getQuery, translatePredicate, tpAux])
     (by intro w h; cases h; decide)
     (by intro w h; cases h; decide)⟩

/-- The set of keys the dedup loop has seen after processing a list of
entries (keys of kept entries; membership-wise, all keys plus the
initial seen set). -/
def seenAfter : List (String × Int) → List String → List String
  | [], seen => seen
  | e :: rest, seen =>
    if e.1 ∈ seen then seenAfter rest seen else seenAfter rest (e.1 :: seen)

theorem dedupSeen_append (a b : List (String × Int)) (seen : List String) :
    dedupSeen (a ++ b) seen = dedupSeen a seen ++ dedupSeen b (seenAfter a seen) := by
  induction a generalizing seen with
  | nil => simp [dedupSeen, seenAfter]
  | cons e rest ih =>
    by_cases h : e.1 ∈ seen <;> simp [dedupSeen, seenAfter, h, ih]

theorem mem_seenAfter (a : List (String × Int)) (seen : List String) (k : String) :
    k ∈ seenAfter a seen ↔ k ∈ a.map Prod.fst ∨ k ∈ seen := by
  induction a generalizing seen with
  | nil => simp [seenAfter]
  | cons e rest ih =>
    by_cases h : e.1 ∈ seen
    · have hstep : seenAfter (e :: rest) seen = seenAfter rest seen := by
        simp only [seenAfter]
        rw [if_pos h]
      rw [hstep, ih, List.map_cons, List.mem_cons]
      constructor
      · tauto
      · rintro ((rfl | hx) | hx)
        · exact Or.inr h
        · exact Or.inl hx
        · exact Or.inr hx
    · have hstep : seenAfter (e :: rest) seen = seenAfter rest (e.1 :: seen) := by
        simp only [seenAfter]
        rw [if_neg h]
      rw [hstep, ih, List.map_cons, List.mem_cons, List.mem_cons]
      tauto

theorem dedupSeen_congr (l : List (String × Int)) :
    ∀ s1 s2, (∀ k, k ∈ s1 ↔ k ∈ s2) → dedupSeen l s1 = dedupSeen l s2 := by
  induction l with
  | nil => intro s1 s2 _; simp [dedupSeen]
  | cons e rest ih =>
    intro s1 s2 h
    by_cases h1 : e.1 ∈ s1
    · have h2 : e.1 ∈ s2 := (h e.1).1 h1
      simp only [dedupSeen]
      rw [if_pos h1, if_pos h2]
      exact ih _ _ h
    · have h2 : e.1 ∉ s2 := fun hx => h1 ((h e.1).2 hx)
      simp only [dedupSeen]
      rw [if_neg h1, if_neg h2]
      exact congrArg (List.cons e) (ih _ _ (fun k => by
        rw [List.mem_cons, List.mem_cons, h k]))

/-- The last-to-first pass with a seen-set equals keeping, first to
last, every entry whose key is neither initially seen nor repeated
later. -/
def lastOccSeen : List (String × Int) → List String → List (String × Int)
  | [], _ => []
  | e :: rest, seen =>
    if e.1 ∈ seen ∨ e.1 ∈ rest.map Prod.fst then lastOccSeen rest seen
    else e :: lastOccSeen rest seen

theorem dedupSeen_reverse (l : List (String × Int)) :
    ∀ seen, (dedupSeen l.reverse seen).reverse = lastOccSeen l seen := by
  induction l with
  | nil => intro seen; simp [dedupSeen, lastOccSeen]
  | cons e rest ih =>
    intro seen
    have hrev : (e :: rest).reverse = rest.reverse ++ [e] := by simp
    rw [hrev, dedupSeen_append, List.reverse_append, ih seen]
    by_cases hc : e.1 ∈ seen ∨ e.1 ∈ rest.map Prod.fst
    · have hm : e.1 ∈ seenAfter rest.reverse seen := by
        rw [mem_seenAfter]
        rcases hc with h | h
        · exact Or.inr h
        · exact Or.inl (by rw [List.map_reverse, List.mem_reverse]; exact h)
      simp only [dedupSeen, lastOccSeen]
      rw [if_pos hm, if_pos hc]
      simp
    · have hm : e.1 ∉ seenAfter rest.reverse seen := by
        rw [mem_seenAfter]
        push_neg at hc ⊢
        exact ⟨by rw [List.map_reverse, List.mem_reverse]; exact hc.2, hc.1⟩
      simp only [dedupSeen, lastOccSeen]
      rw [if_neg hm, if_neg hc]
      simp

theorem lastOccSeen_nil (l : List (String × Int)) :
    lastOccSeen l [] = lastOccurrenceSort l := by
  induction l with
  | nil => simp [lastOccSeen, lastOccurrenceSort]
  | cons e rest ih =>
    by_cases h : e.1 ∈ List.map Prod.fst rest
    · simp only [lastOccSeen, lastOccurrenceSort]
      rw [if_pos (Or.inr h), if_pos h, ih]
    · simp only [lastOccSeen, lastOccurrenceSort]
      rw [if_neg (by simp [h]), if_neg h, ih]

theorem lastOccurrenceSort_sublist (l : List (String × Int)) :
    (lastOccurrenceSort l).Sublist l := by
  induction l with
  | nil => simp [lastOccurrenceSort]
  | cons e rest ih =>
    by_cases h : e.1 ∈ rest.map Prod.fst
    · simp only [lastOccurrenceSort]
      rw [if_pos h]
      exact ih.cons _
    · simp only [lastOccurrenceSort]
      rw [if_neg h]
      exact ih.cons₂ _

theorem mem_keys_lastOccurrenceSort (l : List (String × Int)) (k : String) :
    k ∈ (lastOccurrenceSort l).map Prod.fst ↔ k ∈ l.map Prod.fst := by
  induction l with
  | nil => simp [lastOccurrenceSort]
  | cons e rest ih =>
    by_cases h : e.1 ∈ rest.map Prod.fst
    · simp only [lastOccurrenceSort]
      rw [if_pos h, ih, List.map_cons, List.mem_cons]
      constructor
      · tauto
      · rintro (rfl | hx)
        · exact h
        · exact hx
    · simp only [lastOccurrenceSort]
      rw [if_neg h, List.map_cons, List.map_cons, List.mem_cons, List.mem_cons, ih]

theorem keys_nodup_lastOccurrenceSort (l : List (String × Int)) :
    ((lastOccurrenceSort l).map Prod.fst).Nodup := by
  induction l with
  | nil => simp [lastOccurrenceSort]
  | cons e rest ih =>
    by_cases h : e.1 ∈ rest.map Prod.fst
    · simp only [lastOccurrenceSort]
      rw [if_pos h]
      exact ih
    · simp only [lastOccurrenceSort]
      rw [if_neg h, List.map_cons, List.nodup_cons]
      exact ⟨fun hx => h ((mem_keys_lastOccurrenceSort rest e.1).1 hx), ih⟩

/-- C5: for a non-empty sort descriptor the normalized sort equals the
entries that are the last occurrence of their (translated) field name,
kept in place — so exactly one entry per name survives, with the
direction of the last occurrence, the survivors keep their relative
order (sublist), names are pairwise distinct, and no name is lost. -/
theorem sort_dedup_last_occurrence (q : Query) (hs : q.sort ≠ []) :
    getSort q = lastOccurrenceSort
        (q.sort.map (fun f => (getField f.name, if f.reversed then (-1 : Int) else 1)))
    ∧ (getSort q).Sublist
        (q.sort.map (fun f => (getField f.name, if f.reversed then (-1 : Int) else 1)))
    ∧ ((getSort q).map Prod.fst).Nodup
    ∧ (∀ k,
        k ∈ (q.sort.map
              (fun f => (getField f.name, if f.reversed then (-1 : Int) else 1))).map Prod.fst
        ↔ k ∈ (getSort q).map Prod.fst) := by
  have hne : q.sort.isEmpty = false := by
    cases hq : q.sort with
    | nil => exact absurd hq hs
    | cons a l => simp
  have hgs : getSort q = lastOccurrenceSort
      (q.sort.map (fun f => (getField f.name, if f.reversed then (-1 : Int) else 1))) := by
    rw [getSort]
    simp only [hne, Bool.false_eq_true, if_false]
    rw [dedupSeen_reverse, lastOccSeen_nil]
  refine ⟨hgs, ?_, ?_, ?_⟩
  · rw [hgs]; exact lastOccurrenceSort_sublist _
  · rw [hgs]; exact keys_nodup_lastOccurrenceSort _
  · intro k; rw [hgs]; exact (mem_keys_lastOccurrenceSort _ k).symm

theorem sort_dedup_last_occurrence_witness :
    ((⟨[], [⟨"a", false⟩, ⟨"a", true⟩], none⟩ : Query).sort ≠ [])
    ∧ (getSort ⟨[], [⟨"a", false⟩, ⟨"a", true⟩], none⟩ = lastOccurrenceSort
          ((⟨[], [⟨"a", false⟩, ⟨"a", true⟩], none⟩ : Query).sort.map
            (fun f => (getField f.name, if f.reversed then (-1 : Int) else 1)))
       ∧ (getSort ⟨[], [⟨"a", false⟩, ⟨"a", true⟩], none⟩).Sublist
          ((⟨[], [⟨"a", false⟩, ⟨"a", true⟩], none⟩ : Query).sort.map
            (fun f => (getField f.name, if f.reversed then (-1 : Int) else 1)))
       ∧ ((getSort ⟨[], [⟨"a", false⟩, ⟨"a", true⟩], none⟩).map Prod.fst).Nodup
       ∧ (∀ k,
           k ∈ ((⟨[], [⟨"a", false⟩, ⟨"a", true⟩], none⟩ : Query).sort.map
                 (fun f => (getField f.name, if f.reversed then (-1 : Int) else 1))).map Prod.fst
           ↔ k ∈ (getSort ⟨[], [⟨"a", false⟩, ⟨"a", true⟩], none⟩).map Prod.fst)) :=
  ⟨by decide, sort_dedup_last_occurrence ⟨[], [⟨"a", false⟩, ⟨"a", true⟩], none⟩ (by decide)⟩

/-! ## Predicate compiler theorems (C8, C10) -/

theorem hasOther_cons (e : Expression) (rest : List Expression) :
    hasOther (e :: rest) = (hasOther [e] || hasOther rest) := by
  cases e <;> simp [hasOther]

theorem hasOther_expToPredicate (e : Expression) :
    hasOther (expToPredicate e) = hasOther [e] := by
  cases e <;> simp [expToPredicate, hasOther]

theorem translate_error_shape (n : Nat) :
    (∀ e : Expression, sizeOf e ≤ n →
      ∀ r, clauseOf e = Except.error r → r = Err.notImplemented)
    ∧ (∀ l : List Expression, sizeOf l ≤ n →
      ∀ r, trSubs l = Except.error r → r = Err.notImplemented)
    ∧ (∀ (l : List Expression) (b : Bson), sizeOf l ≤ n →
      ∀ r, tpAux l b = Except.error r → r = Err.notImplemented) := by
  induction n using Nat.strong_induction_on with
  | _ n ih =>
  have part3 : ∀ (l : List Expression) (b : Bson), sizeOf l ≤ n →
      ∀ r, tpAux l b = Except.error r → r = Err.notImplemented := by
    intro l b hl r hr
    match l with
    | [] => simp [tpAux] at hr
    | e :: rest =>
      have hone := one_le_sizeOf_list rest
      have hsz : sizeOf (e :: rest) = 1 + sizeOf e + sizeOf rest := by simp
      have hse : sizeOf e < n := by omega
      have hsr : sizeOf rest < n := by omega
      simp only [tpAux] at hr
      cases hce : clauseOf e with
      | error err =>
        rw [hce] at hr
        cases hr
        exact (ih (sizeOf e) hse).1 e le_rfl r hce
      | ok kv =>
        rw [hce] at hr
        exact (ih (sizeOf rest) hsr).2.2 rest (setKey b kv.1 kv.2) le_rfl r hr
  have part2 : ∀ l : List Expression, sizeOf l ≤ n →
      ∀ r, trSubs l = Except.error r → r = Err.notImplemented := by
    intro l hl r hr
    match l with
    | [] => simp [trSubs] at hr
    | e :: rest =>
      have hone := one_le_sizeOf_list rest
      have hsz : sizeOf (e :: rest) = 1 + sizeOf e + sizeOf rest := by simp
      have hetp := sizeOf_expToPredicate_le e
      have hst : sizeOf (expToPredicate e) ≤ n := by omega
      have hsr : sizeOf rest < n := by omega
      simp only [trSubs] at hr
      cases hta : tpAux (expToPredicate e) [] with
      | error err =>
        rw [hta] at hr
        cases hr
        exact part3 (expToPredicate e) [] hst r hta
      | ok sb =>
        rw [hta] at hr
        cases htr : trSubs rest with
        | error err =>
          rw [htr] at hr
          cases hr
          exact (ih (sizeOf rest) hsr).2.1 rest le_rfl r htr
        | ok s =>
          rw [htr] at hr
          simp at hr
  have part1 : ∀ e : Expression, sizeOf e ≤ n →
      ∀ r, clauseOf e = Except.error r → r = Err.notImplemented := by
    intro e he r hr
    cases e with
    | and subs =>
      have hsub : sizeOf subs ≤ n := by
        have : sizeOf (Expression.and subs) = 1 + sizeOf subs := by simp
        omega
      simp only [clauseOf] at hr
      cases hts : trSubs subs with
      | error err =>
        rw [hts] at hr
        cases hr
        exact part2 subs hsub r hts
      | ok s =>
        rw [hts] at hr
        simp at hr
    | or subs =>
      have hsub : sizeOf subs ≤ n := by
        have : sizeOf (Expression.or subs) = 1 + sizeOf subs := by simp
        omega
      simp only [clauseOf] at hr
      cases hts : trSubs subs with
      | error err =>
        rw [hts] at hr
        cases hr
        exact part2 subs hsub r hts
      | ok s =>
        rw [hts] at hr
        simp at hr
    | elemMatch f exps =>
      have hsub : sizeOf exps ≤ n := by
        have : sizeOf (Expression.elemMatch f exps) = 1 + sizeOf f + sizeOf exps := by simp
        have : 0 ≤ sizeOf f := Nat.zero_le _
        omega
      simp only [clauseOf] at hr
      cases hts : trSubs exps with
      | error err =>
        rw [hts] at hr
        cases hr
        exact part2 exps hsub r hts
      | ok s =>
        rw [hts] at hr
        simp at hr
    | inList f vs => simp [clauseOf] at hr
    | ninList f vs => simp [clauseOf] at hr
    | exist f => simp [clauseOf] at hr
    | notExist f => simp [clauseOf] at hr
    | equal f v => simp [clauseOf] at hr
    | notEqual f v => simp [clauseOf] at hr
    | greaterThan f v => simp [clauseOf] at hr
    | greaterOrEqual f v => simp [clauseOf] at hr
    | lowerThan f v => simp [clauseOf] at hr
    | lowerOrEqual f v => simp [clauseOf] at hr
    | regex f pat neg =>
      simp only [clauseOf] at hr
      split at hr <;> simp at hr
    | pred exps =>
      simp only [clauseOf] at hr
      cases hr
      rfl
    | unsupported kind =>
      simp only [clauseOf] at hr
      cases hr
      rfl
  exact ⟨part1, part2, part3⟩




theorem hasOther_translate (n : Nat) :
    (∀ e : Expression, sizeOf e ≤ n → hasOther [e] = true →
      clauseOf e = Except.error Err.notImplemented)
    ∧ (∀ l : List Expression, sizeOf l ≤ n → hasOther l = true →
      trSubs l = Except.error Err.notImplemented)
    ∧ (∀ (l : List Expression) (b : Bson), sizeOf l ≤ n → hasOther l = true →
      tpAux l b = Except.error Err.notImplemented) := by
  induction n using Nat.strong_induction_on with
  | _ n ih =>
  have part1 : ∀ e : Expression, sizeOf e ≤ n → hasOther [e] = true →
      clauseOf e = Except.error Err.notImplemented := by
    intro e he hh
    cases e with
    | and subs =>
      have hsubs : hasOther subs = true := by simpa [hasOther] using hh
      have hsz : sizeOf (Expression.and subs) = 1 + sizeOf subs := by simp
      have hq : trSubs subs = Except.error Err.notImplemented :=
        (ih (sizeOf subs) (by omega)).2.1 subs le_rfl hsubs
      simp [clauseOf, hq]
    | or subs =>
      have hsubs : hasOther subs = true := by simpa [hasOther] using hh
      have hsz : sizeOf (Expression.or subs) = 1 + sizeOf subs := by simp
      have hq : trSubs subs = Except.error Err.notImplemented :=
        (ih (sizeOf subs) (by omega)).2.1 subs le_rfl hsubs
      simp [clauseOf, hq]
    | elemMatch f exps =>
      have hsubs : hasOther exps = true := by simpa [hasOther] using hh
      have hsz : sizeOf (Expression.elemMatch f exps) = 1 + sizeOf f + sizeOf exps := by
        simp
      have hq : trSubs exps = Except.error Err.notImplemented :=
        (ih (sizeOf exps) (by omega)).2.1 exps le_rfl hsubs
      simp [clauseOf, hq]
    | pred exps => simp [clauseOf]
    | unsupported kind => simp [clauseOf]
    | inList f vs => simp [hasOther] at hh
    | ninList f vs => simp [hasOther] at hh
    | exist f => simp [hasOther] at hh
    | notExist f => simp [hasOther] at hh
    | equal f v => simp [hasOther] at hh
    | notEqual f v => simp [hasOther] at hh
    | greaterThan f v => simp [hasOther] at hh
    | greaterOrEqual f v => simp [hasOther] at hh
    | lowerThan f v => simp [hasOther] at hh
    | lowerOrEqual f v => simp [hasOther] at hh
    | regex f pat neg => simp [hasOther] at hh
  have part3 : ∀ (l : List Expression) (b : Bson), sizeOf l ≤ n → hasOther l = true →
      tpAux l b = Except.error Err.notImplemented := by
    intro l b hl hh
    match l with
    | [] => simp [hasOther] at hh
    | e :: rest =>
      have hone := one_le_sizeOf_list rest
      have hsz : sizeOf (e :: rest) = 1 + sizeOf e + sizeOf rest := by simp
      rw [hasOther_cons, Bool.or_eq_true] at hh
      by_cases h1 : hasOther [e] = true
      · have hc := part1 e (by omega) h1
        simp [tpAux, hc]
      · have h2 : hasOther rest = true := hh.resolve_left h1
        cases hce : clauseOf e with
        | error err =>
          have herr : err = Err.notImplemented :=
            (translate_error_shape (sizeOf e)).1 e le_rfl err hce
          simp [tpAux, hce, herr]
        | ok kv =>
          have h3 : tpAux rest (setKey b kv.1 kv.2) = Except.error Err.notImplemented :=
            (ih (sizeOf rest) (by omega)).2.2 rest (setKey b kv.1 kv.2) le_rfl h2
          simp [tpAux, hce, h3]
  have part2 : ∀ l : List Expression, sizeOf l ≤ n → hasOther l = true →
      trSubs l = Except.error Err.notImplemented := by
    intro l hl hh
    match l with
    | [] => simp [hasOther] at hh
    | e :: rest =>
      have hone := one_le_sizeOf_list rest
      have hsz : sizeOf (e :: rest) = 1 + sizeOf e + sizeOf rest := by simp
      have hetp := sizeOf_expToPredicate_le e
      rw [hasOther_cons, Bool.or_eq_true] at hh
      by_cases h1 : hasOther [e] = true
      · have hq : hasOther (expToPredicate e) = true := by
          rw [hasOther_expToPredicate]; exact h1
        have hc := part3 (expToPredicate e) [] (by omega) hq
        simp [trSubs, hc]
      · have h2 : hasOther rest = true := hh.resolve_left h1
        cases hta : tpAux (expToPredicate e) [] with
        | error err =>
          have herr : err = Err.notImplemented :=
            (translate_error_shape (sizeOf (expToPredicate e))).2.2
              (expToPredicate e) [] le_rfl err hta
          simp [trSubs, hta, herr]
        | ok sb =>
          have h3 : trSubs rest = Except.error Err.notImplemented :=
            (ih (sizeOf rest) (by omega)).2.1 rest le_rfl h2
          simp [trSubs, hta, h3]
  exact ⟨part1, part2, part3⟩

/-- C8: any predicate containing a node whose kind is outside the
compiler's allow-list fails compilation with NotImplemented (the only
compilation failure, so the first failure is what propagates), and no
partial filter accompanies the error (the error constructor carries no
filter, mirroring the source's `return nil, err`). -/
theorem unsupported_fails (p : List Expression) (h : hasOther p = true) :
    translatePredicate p = Except.error Err.notImplemented := by
  have := (hasOther_translate (sizeOf p)).2.2 p [] le_rfl h
  simpa [translatePredicate] using this

theorem unsupported_fails_witness :
    hasOther [Expression.unsupported "geoWithin"] = true
    ∧ translatePredicate [Expression.unsupported "geoWithin"]
        = Except.error Err.notImplemented :=
  ⟨by simp [hasOther], unsupported_fails _ (by simp [hasOther])⟩




theorem tpAux_append (l1 l2 : List Expression) (b : Bson) :
    tpAux (l1 ++ l2) b = (match tpAux l1 b with
      | Except.error e => Except.error e
      | Except.ok b1 => tpAux l2 b1) := by
  induction l1 generalizing b with
  | nil => simp [tpAux]
  | cons e rest ih =>
    simp only [List.cons_append, tpAux]
    cases hce : clauseOf e with
    | error err => simp
    | ok kv => simp [ih]

theorem tpAux_avoid (k : String) :
    ∀ (l : List Expression) (b m : Bson),
      (∀ e ∈ l, ∀ kv, clauseOf e = Except.ok kv → kv.1 ≠ k) →
      tpAux l b = Except.ok m → lookupKey m k = lookupKey b k := by
  intro l
  induction l with
  | nil =>
    intro b m _ hm
    simp only [tpAux] at hm
    cases hm
    rfl
  | cons e rest ih =>
    intro b m hav hm
    simp only [tpAux] at hm
    cases hce : clauseOf e with
    | error err => rw [hce] at hm; simp at hm
    | ok kv =>
      rw [hce] at hm
      have hne : kv.1 ≠ k := hav e (List.mem_cons_self e rest) kv hce
      have hrec := ih (setKey b kv.1 kv.2) m
        (fun e' he' => hav e' (List.mem_cons_of_mem _ he')) hm
      rw [hrec, lookupKey_setKey, if_neg (fun hkk => hne hkk.symm)]

theorem tpAux_ok_of_all :
    ∀ (l : List Expression), (∀ e ∈ l, ∃ kv, clauseOf e = Except.ok kv) →
      ∀ b, ∃ m, tpAux l b = Except.ok m := by
  intro l
  induction l with
  | nil => intro _ b; exact ⟨b, by simp [tpAux]⟩
  | cons e rest ih =>
    intro hok b
    obtain ⟨kv, hkv⟩ := hok e (List.mem_cons_self e rest)
    obtain ⟨m, hm⟩ := ih (fun e' he' => hok e' (List.mem_cons_of_mem _ he'))
      (setKey b kv.1 kv.2)
    exact ⟨m, by simp only [tpAux]; rw [hkv]; exact hm⟩

/-- C10: when two expressions at the same predicate level produce a
clause for the same translated field name, the compiled filter keeps
only the clause of the last such expression — the earlier clause is
silently overwritten in the single filter map and no error is
reported. -/
theorem last_clause_wins
    (pre mid post : List Expression) (e1 e2 : Expression)
    (k : String) (v1 v2 : BVal)
    (h1 : clauseOf e1 = Except.ok (k, v1))
    (h2 : clauseOf e2 = Except.ok (k, v2))
    (hpost : ∀ e ∈ post, ∀ kv, clauseOf e = Except.ok kv → kv.1 ≠ k)
    (hok : ∀ e ∈ pre ++ (e1 :: (mid ++ (e2 :: post))), ∃ kv, clauseOf e = Except.ok kv) :
    ∃ m, translatePredicate (pre ++ (e1 :: (mid ++ (e2 :: post)))) = Except.ok m
      ∧ lookupKey m k = some v2 := by
  obtain ⟨m, hm⟩ := tpAux_ok_of_all _ hok []
  refine ⟨m, by simpa [translatePredicate] using hm, ?_⟩
  rw [tpAux_append pre (e1 :: (mid ++ (e2 :: post)))] at hm
  cases hpre : tpAux pre [] with
  | error err => rw [hpre] at hm; simp at hm
  | ok b0 =>
    rw [hpre] at hm
    simp only [tpAux] at hm
    rw [h1] at hm
    have hm2 : tpAux (mid ++ (e2 :: post)) (setKey b0 k v1) = Except.ok m := hm
    rw [tpAux_append mid (e2 :: post)] at hm2
    cases hmid : tpAux mid (setKey b0 k v1) with
    | error err => rw [hmid] at hm2; simp at hm2
    | ok b1 =>
      rw [hmid] at hm2
      simp only [tpAux] at hm2
      rw [h2] at hm2
      have hm3 : tpAux post (setKey b1 k v2) = Except.ok m := hm2
      have hend := tpAux_avoid k post (setKey b1 k v2) m hpost hm3
      rw [hend, lookupKey_setKey, if_pos rfl]

theorem last_clause_wins_witness :
    clauseOf (Expression.greaterThan "foo" (Val.vother 1))
      = Except.ok ("foo", BVal.doc [("$gt", BVal.val (Val.vother 1))])
    ∧ clauseOf (Expression.lowerThan "foo" (Val.vother 2))
      = Except.ok ("foo", BVal.doc [("$lt", BVal.val (Val.vother 2))])
    ∧ (∀ e ∈ ([] : List Expression), ∀ kv, clauseOf e = Except.ok kv → kv.1 ≠ "foo")
    ∧ (∀ e ∈ [Expression.greaterThan "foo" (Val.vother 1),
              Expression.lowerThan "foo" (Val.vother 2)],
        ∃ kv, clauseOf e = Except.ok kv)
    ∧ (∃ m, translatePredicate [Expression.greaterThan "foo" (Val.vother 1),
              Expression.lowerThan "foo" (Val.vother 2)] = Except.ok m
          ∧ lookupKey m "foo" = some (BVal.doc [("$lt", BVal.val (Val.vother 2))])) := by
  have hg : clauseOf (Expression.greaterThan "foo" (Val.vother 1))
      = Except.ok ("foo", BVal.doc [("$gt", BVal.val (Val.vother 1))]) := by
    simp [clauseOf, getField]
  have hl : clauseOf (Expression.lowerThan "foo" (Val.vother 2))
      = Except.ok ("foo", BVal.doc [("$lt", BVal.val (Val.vother 2))]) := by
    simp [clauseOf, getField]
  have hok : ∀ e ∈ [Expression.greaterThan "foo" (Val.vother 1),
      Expression.lowerThan "foo" (Val.vother 2)], ∃ kv, clauseOf e = Except.ok kv := by
    intro e he
    simp only [List.mem_cons, List.not_mem_nil, or_false] at he
    rcases he with rfl | rfl
    · exact ⟨_, hg⟩
    · exact ⟨_, hl⟩
  exact ⟨hg, hl, by simp, hok,
    last_clause_wins [] [] [] (Expression.greaterThan "foo" (Val.vother 1))
      (Expression.lowerThan "foo" (Val.vother 2)) "foo"
      (BVal.doc [("$gt", BVal.val (Val.vother 1))])
      (BVal.doc [("$lt", BVal.val (Val.vother 2))]) hg hl (by simp) hok⟩

end RLMongo
